import Mathlib

/-!
Verification of the token-budgeted content pipeline of the Jamf documentation
MCP server (`src/services/tokenizer.ts`).

Strings are modelled as `List Char` (one element per code point).  Each
definition below is a direct translation of the corresponding TypeScript
function; JS regular expressions are translated by their operational
matching semantics (leftmost match, greedy/non-greedy quantifiers with
backtracking).  `Char.toLower` models `String.prototype.toLowerCase`
(they agree on ASCII).  Budgets and counts are natural numbers; for the
budget range admitted by input validation (≤ 20000) the JS floating-point
arithmetic `Math.floor(maxTokens * 0.1)`, `Math.ceil(x / y)` agrees with
the natural-number formulas used here.
-/

namespace JamfDocs

set_option maxRecDepth 40000

/-- Helper: the characters of a Lean string literal. -/
def str (s : String) : List Char := s.toList

/-- The JS `\s` character class (WhiteSpace ∪ LineTerminator), as used by
`String.prototype.trim` and regex `\s`. -/
def isSpaceChar (c : Char) : Bool :=
  c = '\t' || c = '\n' || c = '\x0b' || c = '\x0c' || c = '\r' || c = ' ' ||
  c = '\u00a0' || c = '\u1680' || c = '\u2000' || c = '\u2001' || c = '\u2002' ||
  c = '\u2003' || c = '\u2004' || c = '\u2005' || c = '\u2006' || c = '\u2007' ||
  c = '\u2008' || c = '\u2009' || c = '\u200a' || c = '\u2028' || c = '\u2029' ||
  c = '\u202f' || c = '\u205f' || c = '\u3000' || c = '\ufeff'

/-- The JS LineTerminator class. -/
def isLineTerm (c : Char) : Bool :=
  c = '\n' || c = '\r' || c = '\u2028' || c = '\u2029'

/-- JS regex `.` (without the `s` flag): any character except a line
terminator. -/
def isDotChar (c : Char) : Bool := !isLineTerm c

/-- `String.prototype.trim`. -/
def jsTrim (l : List Char) : List Char :=
  ((l.dropWhile isSpaceChar).reverse.dropWhile isSpaceChar).reverse

/-- `startsWith` on character lists (JS `String.prototype.startsWith`). -/
def startsWithL : List Char → List Char → Bool
  | [], _ => true
  | _ :: _, [] => false
  | p :: ps, c :: cs => p = c && startsWithL ps cs

/-- JS `String.prototype.includes`: contiguous-substring test. -/
def containsSub : List Char → List Char → Bool
  | hay, needle =>
    if startsWithL needle hay then true
    else
      match hay with
      | [] => false
      | _ :: t => containsSub t needle

/-- `content.split('\n')`. -/
def splitLines : List Char → List (List Char)
  | [] => [[]]
  | c :: cs =>
    match splitLines cs with
    | [] => [[c]]
    | l :: ls => if c = '\n' then [] :: l :: ls else (c :: l) :: ls

/-- A triple-backtick fence marker. -/
def fence3 : List Char := ['`', '`', '`']

/-- Does the text begin with a triple-backtick marker? -/
def isFenceStart : List Char → Bool
  | a :: b :: c :: _ => a = '`' && b = '`' && c = '`'
  | _ => false

theorem isFenceStart_shape (s : List Char) (h : isFenceStart s = true) :
    ∃ t, s = '`' :: '`' :: '`' :: t := by
  match s with
  | [] => simp [isFenceStart] at h
  | [a] => simp [isFenceStart] at h
  | [a, b] => simp [isFenceStart] at h
  | a :: b :: c :: t =>
    simp [isFenceStart] at h
    obtain ⟨⟨h1, h2⟩, h3⟩ := h
    exact ⟨t, by rw [h1, h2, h3]⟩

/-- Scan for the closing `\x60\x60\x60` of an already-opened fence: the regex
`\x60\x60\x60[\s\S]*?\x60\x60\x60` closes at the earliest occurrence of three
backticks at or after the end of the opening marker.  Returns the interior and
the text after the closing marker. -/
def findClose : List Char → Option (List Char × List Char)
  | [] => none
  | c :: cs =>
    if isFenceStart (c :: cs) then some ([], (c :: cs).drop 3)
    else
      match findClose cs with
      | some (int, rest) => some (c :: int, rest)
      | none => none

theorem findClose_len :
    ∀ s int rest, findClose s = some (int, rest) →
      s.length = int.length + 3 + rest.length := by
  intro s
  induction s with
  | nil => intro int rest h; simp [findClose] at h
  | cons c cs ih =>
    intro int rest h
    by_cases hf : isFenceStart (c :: cs) = true
    · rw [findClose, if_pos hf] at h
      obtain ⟨t, ht⟩ := isFenceStart_shape _ hf
      injection ht with hc hcs
      subst hc; subst hcs
      simp at h
      obtain ⟨h1, h2⟩ := h
      subst h1; subst h2
      simp; omega
    · rw [findClose, if_neg hf] at h
      cases hfc : findClose cs with
      | none => rw [hfc] at h; exact absurd h (by simp)
      | some p =>
        rw [hfc] at h
        obtain ⟨int', rest'⟩ := p
        simp at h
        obtain ⟨h1, h2⟩ := h
        have := ih int' rest' hfc
        subst h1 h2
        simp at this ⊢
        omega

/-- Fuel-indexed matcher behind `splitFences`; the fuel only forces
termination and is irrelevant once it bounds the text length
(`splitFencesF_eq`). -/
def splitFencesF : Nat → List Char → List (List Char) × List Char
  | 0, s => ([], s)
  | _ + 1, [] => ([], [])
  | fuel + 1, c :: cs =>
    if isFenceStart (c :: cs) then
      match findClose ((c :: cs).drop 3) with
      | some (int, rest) =>
        let p := splitFencesF fuel rest
        ((fence3 ++ int ++ fence3) :: p.1, p.2)
      | none => ([], c :: cs)
    else
      let p := splitFencesF fuel cs
      (p.1, c :: p.2)

/-- Decompose a text exactly as `text.match(/\x60\x60\x60[\s\S]*?\x60\x60\x60/g)`
and `text.replace(..., '')` do: the list of matched code blocks, and the
concatenation of the unmatched (regular) characters. -/
def splitFences (s : List Char) : List (List Char) × List Char :=
  splitFencesF s.length s

theorem splitFencesF_succ :
    ∀ fuel s, s.length ≤ fuel → splitFencesF (fuel + 1) s = splitFencesF fuel s := by
  intro fuel
  induction fuel with
  | zero =>
    intro s h
    have hs : s = [] := by
      cases s with
      | nil => rfl
      | cons c cs => simp at h
    subst hs
    rfl
  | succ fuel ih =>
    intro s h
    cases s with
    | nil => rfl
    | cons c cs =>
      rw [splitFencesF, splitFencesF]
      by_cases hf : isFenceStart (c :: cs) = true
      · rw [if_pos hf, if_pos hf]
        cases hfc : findClose ((c :: cs).drop 3) with
        | none => rfl
        | some p =>
          obtain ⟨int, rest⟩ := p
          have hlen := findClose_len _ _ _ hfc
          obtain ⟨t, ht⟩ := isFenceStart_shape _ hf
          have hdl : ((c :: cs).drop 3).length = cs.length - 2 := by
            injection ht with _ h2
            rw [h2]; simp
          dsimp only
          have hr : rest.length ≤ fuel := by
            simp at h; omega
          rw [ih rest hr]
      · rw [if_neg hf, if_neg hf]
        have h1 : cs.length ≤ fuel := by simp at h; omega
        dsimp only
        rw [ih cs h1]

theorem splitFencesF_eq :
    ∀ fuel s, s.length ≤ fuel → splitFencesF fuel s = splitFences s := by
  intro fuel
  induction fuel with
  | zero =>
    intro s h
    have hs : s = [] := by
      cases s with
      | nil => rfl
      | cons c cs => simp at h
    subst hs
    rfl
  | succ fuel ih =>
    intro s h
    by_cases hlt : s.length ≤ fuel
    · rw [splitFencesF_succ fuel s hlt, ih s hlt]
    · have : s.length = fuel + 1 := by omega
      rw [splitFences, this]

theorem splitFences_nil : splitFences [] = ([], []) := rfl

theorem splitFences_fence_some (c : Char) (cs int rest : List Char)
    (hf : isFenceStart (c :: cs) = true)
    (hc : findClose ((c :: cs).drop 3) = some (int, rest)) :
    splitFences (c :: cs) =
      ((fence3 ++ int ++ fence3) :: (splitFences rest).1, (splitFences rest).2) := by
  show splitFencesF (cs.length + 1) (c :: cs) = _
  rw [splitFencesF, if_pos hf, hc]
  have hlen := findClose_len _ _ _ hc
  obtain ⟨t, ht⟩ := isFenceStart_shape _ hf
  have hdl : ((c :: cs).drop 3).length = cs.length - 2 := by
    injection ht with _ h2
    rw [h2]; simp
  dsimp only
  rw [splitFencesF_eq cs.length rest (by omega)]

theorem splitFences_fence_none (c : Char) (cs : List Char)
    (hf : isFenceStart (c :: cs) = true)
    (hc : findClose ((c :: cs).drop 3) = none) :
    splitFences (c :: cs) = ([], c :: cs) := by
  show splitFencesF (cs.length + 1) (c :: cs) = _
  rw [splitFencesF, if_pos hf, hc]

theorem splitFences_cons (c : Char) (cs : List Char)
    (hf : ¬ isFenceStart (c :: cs) = true) :
    splitFences (c :: cs) = ((splitFences cs).1, c :: (splitFences cs).2) := by
  show splitFencesF (cs.length + 1) (c :: cs) = _
  rw [splitFencesF, if_neg hf]
  dsimp only
  rw [splitFencesF_eq cs.length cs (by omega)]

/-- Ceiling division, `Math.ceil(a / b)` for naturals. -/
def ceilDiv (a b : Nat) : Nat := (a + b - 1) / b

/-- `TOKEN_CONFIG.CHARS_PER_TOKEN`. -/
def CHARS_PER_TOKEN : Nat := 4

/-- `TOKEN_CONFIG.CODE_CHARS_PER_TOKEN`. -/
def CODE_CHARS_PER_TOKEN : Nat := 3

/-- `TOKEN_CONFIG.DEFAULT_MAX_TOKENS`. -/
def DEFAULT_MAX_TOKENS : Nat := 5000

/-- `estimateTokens` from `tokenizer.ts`: split the text into fenced code
blocks and regular text, price code at 3 chars/token and prose at
4 chars/token (each span rounded up separately). -/
def estimateTokens (text : List Char) : Nat :=
  let p := splitFences text
  (p.1.map fun b => ceilDiv b.length CODE_CHARS_PER_TOKEN).sum +
    ceilDiv p.2.length CHARS_PER_TOKEN

/-! ## Section model (`ArticleSection`, `extractSections`, `generateSectionId`) -/

/-- `TokenInfo` from `types.ts`. -/
structure TokenInfo where
  tokenCount : Nat
  truncated : Bool
  maxTokens : Nat
  deriving Repr, DecidableEq

/-- `ArticleSection` from `types.ts`. -/
structure ArticleSection where
  id : List Char
  title : List Char
  level : Nat
  tokenCount : Nat
  deriving Repr, DecidableEq

/-- Parse a line against the heading regex `^(#{1,6})\s+(.+)$`: a run of one
to six hashes, at least one whitespace character, then a non-empty remainder
of dot-class characters; the greedy `\s+` leaves the shortest such remainder.
Returns the heading level and the trimmed title
(`headingMatch[1].length`, `headingMatch[2].trim()`). -/
def parseHeading (line : List Char) : Option (Nat × List Char) :=
  let n := (line.takeWhile fun c => c = '#').length
  if 1 ≤ n ∧ n ≤ 6 then
    let rest := line.drop n
    let m := (rest.takeWhile isSpaceChar).length
    let k := min m (rest.length - 1)
    if 1 ≤ k ∧ (rest.drop k) ≠ [] ∧ (rest.drop k).all isDotChar then
      some (n, jsTrim (rest.drop k))
    else none
  else none

/-- `generateSectionId`, step 2: `replace(/[^a-z0-9]+/g, '-')` — collapse
every run of non-alphanumerics to a single hyphen. -/
def isIdChar (c : Char) : Bool :=
  ('a' ≤ c && c ≤ 'z') || ('0' ≤ c && c ≤ '9')

theorem dropWhile_length_le (p : Char → Bool) (l : List Char) :
    (l.dropWhile p).length ≤ l.length := by
  induction l with
  | nil => simp [List.dropWhile]
  | cons c cs ih =>
    rw [List.dropWhile]
    by_cases h : p c = true
    · simp [h]; omega
    · simp [h]

mutual

def collapseRuns : List Char → List Char
  | [] => []
  | c :: cs => if isIdChar c then c :: collapseRuns cs else '-' :: skipRun cs

/-- Skip the tail of a non-alphanumeric run (its first character has already
produced the hyphen). -/
def skipRun : List Char → List Char
  | [] => []
  | c :: cs => if isIdChar c then c :: collapseRuns cs else skipRun cs

end

/-- `generateSectionId`: lowercase, collapse non-alphanumeric runs to single
hyphens, strip one leading and one trailing hyphen (`replace(/^-|-$/g, '')`
applied to the collapsed string, which never contains two adjacent
hyphens). -/
def generateSectionId (title : List Char) : List Char :=
  let collapsed := collapseRuns (title.map Char.toLower)
  let s1 := match collapsed with
    | '-' :: t => t
    | t => t
  match s1.reverse with
  | '-' :: t => t.reverse
  | _ => s1

/-- One step of the `extractSections` fold: flush the currently open section
(if any) in front of the already-produced tail. -/
def saveSection (cur : Option (List Char × Nat)) (content : List Char)
    (tail : List ArticleSection) : List ArticleSection :=
  match cur with
  | none => tail
  | some (title, level) =>
    ⟨generateSectionId title, title, level, estimateTokens content⟩ :: tail

def extractSectionsAux :
    List (List Char) → Option (List Char × Nat) → List Char → List ArticleSection
  | [], cur, content => saveSection cur content []
  | line :: rest, cur, content =>
    match parseHeading line with
    | some (level, title) =>
      saveSection cur content
        (extractSectionsAux rest (some (title, level)) (line ++ ['\n']))
    | none =>
      match cur with
      | some _ => extractSectionsAux rest cur (content ++ line ++ ['\n'])
      | none => extractSectionsAux rest none content

/-- `extractSections` from `tokenizer.ts`: one entry per heading line, in
document order, each pricing the span from its heading up to the next
heading. -/
def extractSections (content : List Char) : List ArticleSection :=
  extractSectionsAux (splitLines content) none []

/-! ## Smart truncation (`truncateToTokenLimit`) -/

/-- `TruncateResult`; the optional `remainingSections` field is `none` when
absent. -/
structure TruncateResult where
  content : List Char
  tokenInfo : TokenInfo
  remainingSections : Option (List ArticleSection)
  deriving Repr, DecidableEq

/-- The decimal digit characters. -/
def digitChar (d : Nat) : Char :=
  if d = 0 then '0' else if d = 1 then '1' else if d = 2 then '2'
  else if d = 3 then '3' else if d = 4 then '4' else if d = 5 then '5'
  else if d = 6 then '6' else if d = 7 then '7' else if d = 8 then '8' else '9'

/-- Fuel-indexed digit accumulator behind `natChars`. -/
def natCharsF : Nat → Nat → List Char → List Char
  | 0, n, acc => digitChar (n % 10) :: acc
  | fuel + 1, n, acc =>
    if n < 10 then digitChar n :: acc
    else natCharsF fuel (n / 10) (digitChar (n % 10) :: acc)

/-- Decimal digits of a natural number (JS number-to-string for integers). -/
def natChars (n : Nat) : List Char := natCharsF n n []

/-- `'  '.repeat(Math.max(0, level - 1))`. -/
def indentFor (level : Nat) : List Char :=
  (List.replicate (level - 1) [' ', ' ']).flatten

/-- `reserved = Math.min(500, Math.floor(maxTokens * 0.1))`. -/
def reservedTokens (maxTokens : Nat) : Nat := min 500 (maxTokens / 10)

/-- `effectiveMax = maxTokens - reservedTokens`. -/
def effectiveMaxOf (maxTokens : Nat) : Nat := maxTokens - reservedTokens maxTokens

/-- The line-accumulation loop of `truncateToTokenLimit`.  Returns the
accumulated lines, whether a closing fence is appended (the loop broke while
`inCodeBlock` was set), and the final `runningTokens` counter.  Note the
fence toggle happens before the budget check, exactly as in the source. -/
def truncScan (effectiveMax : Nat) :
    List (List Char) → Nat → Bool → List (List Char) × Bool × Nat
  | [], running, _ => ([], false, running)
  | line :: rest, running, inCodeBlock =>
    let inCodeBlock' := if startsWithL fence3 line then !inCodeBlock else inCodeBlock
    let lineTokens := estimateTokens (line ++ ['\n'])
    if effectiveMax < running + lineTokens then ([], inCodeBlock', running)
    else
      let r := truncScan effectiveMax rest (running + lineTokens) inCodeBlock'
      (line :: r.1, r.2.1, r.2.2)

/-- `truncatedLines` of `truncateToTokenLimit`: the accumulated lines plus
the closing fence appended when the loop broke inside an open code block. -/
def truncatedLinesOf (content : List Char) (maxTokens : Nat) : List (List Char) :=
  let r := truncScan (effectiveMaxOf maxTokens) (splitLines content) 0 false
  r.1 ++ (if r.2.1 then [fence3] else [])

/-- `truncatedContent = truncatedLines.join('\n')`: the body that precedes
the truncation notice. -/
def truncatedContentOf (content : List Char) (maxTokens : Nat) : List Char :=
  List.intercalate ['\n'] (truncatedLinesOf content maxTokens)

/-- The `remainingSections` set difference: full-document sections whose id
does not occur among the ids re-extracted from the truncated body. -/
def remainingSectionsOf (content : List Char) (maxTokens : Nat) : List ArticleSection :=
  let includedIds := (extractSections (truncatedContentOf content maxTokens)).map (·.id)
  (extractSections content).filter fun s => !(includedIds.contains s.id)

/-- One bullet of the remaining-sections list in the truncation notice. -/
def sectionBullet (s : ArticleSection) : List Char :=
  indentFor s.level ++ str "- " ++ s.title ++ str " (~" ++ natChars s.tokenCount ++
    str " tokens)\n"

/-- The truncation notice appended after the truncated body. -/
def buildNotice (remaining : List ArticleSection) : List Char :=
  str "\n\n---\n\n*[Content truncated due to token limit]*\n" ++
    (if remaining.length ≠ 0 then
      str "\n**Remaining sections:**\n" ++
        ((remaining.take 10).map sectionBullet).flatten ++
        (if 10 < remaining.length then
          str "\n*...and " ++ natChars (remaining.length - 10) ++ str " more sections*\n"
         else []) ++
        str "\n*Use the `section` parameter to retrieve specific sections.*"
     else [])

/-- `truncateToTokenLimit` from `tokenizer.ts`. -/
def truncateToTokenLimit (content : List Char)
    (maxTokens : Nat := DEFAULT_MAX_TOKENS) : TruncateResult :=
  let currentTokens := estimateTokens content
  if currentTokens ≤ maxTokens then
    ⟨content, ⟨currentTokens, false, maxTokens⟩, none⟩
  else
    let remaining := remainingSectionsOf content maxTokens
    let finalContent := truncatedContentOf content maxTokens ++ buildNotice remaining
    ⟨finalContent, ⟨estimateTokens finalContent, true, maxTokens⟩, some remaining⟩

/-! ## Section extraction (`extractSection`) -/

/-- `ExtractSectionResult`. -/
structure ExtractSectionResult where
  content : List Char
  section? : Option ArticleSection
  tokenInfo : TokenInfo
  deriving Repr, DecidableEq

/-- The target test of `extractSection`:
`id === normalizedId || title.toLowerCase().includes(sectionIdentifier.toLowerCase())`. -/
def matchesIdentifier (sectionIdentifier title : List Char) : Bool :=
  generateSectionId title = generateSectionId sectionIdentifier ||
    containsSub (title.map Char.toLower) (sectionIdentifier.map Char.toLower)

/-- The line-collection loop of `extractSection`: `found` carries the matched
section (if any) and `targetLevel` its level.  Returns the collected lines
and the found section. -/
def collectSection (sectionIdentifier : List Char) :
    List (List Char) → Option ArticleSection → Nat →
      List (List Char) × Option ArticleSection
  | [], found, _ => ([], found)
  | line :: rest, found, targetLevel =>
    match parseHeading line with
    | some (level, title) =>
      match found with
      | some f =>
        if level ≤ targetLevel then ([], some f)
        else
          let r := collectSection sectionIdentifier rest (some f) targetLevel
          (line :: r.1, r.2)
      | none =>
        if matchesIdentifier sectionIdentifier title then
          let f : ArticleSection := ⟨generateSectionId title, title, level, 0⟩
          let r := collectSection sectionIdentifier rest (some f) level
          (line :: r.1, r.2)
        else
          collectSection sectionIdentifier rest none targetLevel
    | none =>
      match found with
      | some f =>
        let r := collectSection sectionIdentifier rest (some f) targetLevel
        (line :: r.1, r.2)
      | none => collectSection sectionIdentifier rest none targetLevel

/-- `extractSection` from `tokenizer.ts`. -/
def extractSection (content sectionIdentifier : List Char)
    (maxTokens : Nat := DEFAULT_MAX_TOKENS) : ExtractSectionResult :=
  let r := collectSection sectionIdentifier (splitLines content) none 0
  let truncateResult := truncateToTokenLimit (List.intercalate ['\n'] r.1) maxTokens
  let found := r.2.map fun f => { f with tokenCount := truncateResult.tokenInfo.tokenCount }
  ⟨truncateResult.content, found, truncateResult.tokenInfo⟩

/-- Reference rendering of claim C6's collection rule: take every line from
the first heading matching the identifier up to (but excluding) the next
heading of level ≤ L. -/
def takeSectionSpec (L : Nat) : List (List Char) → List (List Char)
  | [] => []
  | line :: rest =>
    match parseHeading line with
    | some (level, _) =>
      if level ≤ L then [] else line :: takeSectionSpec L rest
    | none => line :: takeSectionSpec L rest

/-- Reference rendering of claim C6: scan for the first matching heading in
document order; collect it and its subtree. -/
def sectionLinesSpec (sectionIdentifier : List Char) :
    List (List Char) → List (List Char)
  | [] => []
  | line :: rest =>
    match parseHeading line with
    | some (level, title) =>
      if matchesIdentifier sectionIdentifier title then
        line :: takeSectionSpec level rest
      else sectionLinesSpec sectionIdentifier rest
    | none => sectionLinesSpec sectionIdentifier rest

/-! ## Pagination (`calculatePagination`, `truncateItemsToTokenLimit`) -/

/-- Return record of `calculatePagination`.  The requested page is an
arbitrary integer; all other quantities are naturals in the source's
operating range. -/
structure PaginationInfo where
  page : Int
  pageSize : Nat
  totalPages : Nat
  totalItems : Nat
  hasNext : Bool
  hasPrev : Bool
  startIndex : Int
  endIndex : Int
  deriving Repr, DecidableEq

/-- `calculatePagination` from `tokenizer.ts`:
`totalPages = Math.ceil(totalItems / pageSize)`,
`normalizedPage = Math.min(Math.max(1, page), Math.max(totalPages, 1))`. -/
def calculatePagination (totalItems : Nat) (page : Int) (pageSize : Nat) :
    PaginationInfo :=
  let totalPages := ceilDiv totalItems pageSize
  let normalizedPage := min (max 1 page) (max (totalPages : Int) 1)
  { page := normalizedPage
    pageSize := pageSize
    totalPages := totalPages
    totalItems := totalItems
    hasNext := decide (normalizedPage < (totalPages : Int))
    hasPrev := decide (1 < normalizedPage)
    startIndex := (normalizedPage - 1) * pageSize
    endIndex := min (normalizedPage * pageSize) (totalItems : Int) }

/-- Pagination block of the `truncateItemsToTokenLimit` result. -/
structure PaginationMeta where
  page : Int
  pageSize : Nat
  totalPages : Nat
  totalItems : Nat
  hasNext : Bool
  hasPrev : Bool
  deriving Repr, DecidableEq

/-- Result of `truncateItemsToTokenLimit`. -/
structure ItemsResult (α : Type) where
  items : List α
  tokenInfo : TokenInfo
  pagination : PaginationMeta

/-- The greedy accumulation loop of `truncateItemsToTokenLimit`: returns the
included items, the running token total and the truncation flag. -/
def fitItems {α : Type} (maxTokens : Nat) (itemToString : α → List Char) :
    List α → Nat → List α × Nat × Bool
  | [], running => ([], running, false)
  | item :: rest, running =>
    let itemTokens := estimateTokens (itemToString item)
    if maxTokens < running + itemTokens then ([], running, true)
    else
      let r := fitItems maxTokens itemToString rest (running + itemTokens)
      (item :: r.1, r.2.1, r.2.2)

/-- `items.slice(pagination.startIndex, pagination.endIndex)`. -/
def pageSliceOf {α : Type} (items : List α) (page : Int) (pageSize : Nat) :
    List α :=
  let p := calculatePagination items.length page pageSize
  (items.take p.endIndex.toNat).drop p.startIndex.toNat

/-- `truncateItemsToTokenLimit` from `tokenizer.ts`. -/
def truncateItemsToTokenLimit {α : Type} (items : List α) (maxTokens : Nat)
    (itemToString : α → List Char) (page : Int := 1) (pageSize : Nat := 10) :
    ItemsResult α :=
  let pagination := calculatePagination items.length page pageSize
  let r := fitItems maxTokens itemToString (pageSliceOf items page pageSize) 0
  { items := r.1
    tokenInfo := ⟨r.2.1, r.2.2, maxTokens⟩
    pagination :=
      { page := pagination.page
        pageSize := pagination.pageSize
        totalPages := pagination.totalPages
        totalItems := pagination.totalItems
        hasNext := pagination.hasNext || r.2.2
        hasPrev := pagination.hasPrev } }

/-! ## Summary extraction (`extractSummary`) -/

/-- `SummaryResult`. -/
structure SummaryResult where
  title : List Char
  summary : List Char
  outline : List ArticleSection
  totalTokens : Nat
  estimatedReadTime : Nat
  tokenInfo : TokenInfo
  deriving Repr, DecidableEq

/-- The first-paragraph scan of `extractSummary`: skip code-block interiors,
headings, leading blanks and list/table lines; accumulate the first paragraph
(each line followed by a space); stop at the first boundary after paragraph
content has started. -/
def summaryScan : List (List Char) → Bool → Bool → List Char
  | [], _, _ => []
  | line :: rest, inParagraph, inCodeBlock =>
    if startsWithL fence3 line then
      if inParagraph then [] else summaryScan rest inParagraph (!inCodeBlock)
    else if inCodeBlock then summaryScan rest inParagraph inCodeBlock
    else if startsWithL ['#'] line then
      if inParagraph then [] else summaryScan rest inParagraph inCodeBlock
    else if jsTrim line = [] && !inParagraph then summaryScan rest inParagraph inCodeBlock
    else if startsWithL ['-'] (jsTrim line) || startsWithL ['*'] (jsTrim line) ||
        startsWithL ['|'] (jsTrim line) then
      if inParagraph then [] else summaryScan rest inParagraph inCodeBlock
    else if jsTrim line ≠ [] then
      line ++ ' ' :: summaryScan rest true inCodeBlock
    else if inParagraph then []
    else summaryScan rest inParagraph inCodeBlock

/-- Match the fallback-strip regex `^#+\s+.+$` (multiline) at a position known
to be a line start.  With backtracking, `\s+` keeps the longest whitespace run
that still leaves a non-empty all-dot remainder ending at a line boundary;
since the dot class is exactly the complement of the line terminators, the
match consumes `hashes ++ whitespace-prefix ++ dot-run`.  Returns the number
of consumed characters (at least 3 when some). -/
def matchHeadingLen (s : List Char) : Option Nat :=
  let n := (s.takeWhile fun c => c = '#').length
  if n = 0 then none
  else
    let r1 := s.drop n
    let w := (r1.takeWhile isSpaceChar).length
    if w = 0 then none
    else if w < r1.length then
      some (n + w + ((r1.drop w).takeWhile isDotChar).length)
    else
      match (List.range w).reverse.find? fun k =>
          decide (1 ≤ k) && isDotChar (r1.getD k ' ') with
      | some k => some (n + k + ((r1.drop k).takeWhile isDotChar).length)
      | none => none

theorem matchHeadingLen_pos (s : List Char) (m : Nat)
    (h : matchHeadingLen s = some m) : 1 ≤ m := by
  unfold matchHeadingLen at h
  by_cases h0 : (s.takeWhile fun c => c = '#').length = 0
  · simp [h0] at h
  · simp only [h0, if_false] at h
    by_cases h1 : ((s.drop (s.takeWhile fun c => c = '#').length).takeWhile isSpaceChar).length = 0
    · simp [h1] at h
    · simp only [h1, if_false] at h
      split at h
      · simp at h; omega
      · split at h
        · simp at h; omega
        · simp at h

/-- `content.replace(/^#+\s+.+$/gm, '')`: global multiline removal of
heading-shaped spans.  The scanner tracks the `^` anchoring state (start of
string or just after a line terminator).  Fuel-indexed for structural
termination; the initial fuel bounds the text length, and every match
consumes at least one character (`matchHeadingLen_pos`). -/
def stripHeadingsF : Nat → List Char → Bool → List Char
  | 0, s, _ => s
  | _ + 1, [], _ => []
  | fuel + 1, c :: cs, atLineStart =>
    if atLineStart then
      match matchHeadingLen (c :: cs) with
      | some m => stripHeadingsF fuel ((c :: cs).drop m) false
      | none => c :: stripHeadingsF fuel cs (isLineTerm c)
    else
      c :: stripHeadingsF fuel cs (isLineTerm c)

def stripHeadings (s : List Char) (atLineStart : Bool) : List Char :=
  stripHeadingsF s.length s atLineStart

mutual

/-- `.replace(/\n+/g, ' ')`: collapse every run of newlines to one space. -/
def collapseNewlines : List Char → List Char
  | [] => []
  | c :: cs => if c = '\n' then ' ' :: skipNewlines cs else c :: collapseNewlines cs

/-- Skip the tail of a newline run already replaced by a space. -/
def skipNewlines : List Char → List Char
  | [] => []
  | c :: cs => if c = '\n' then skipNewlines cs else c :: collapseNewlines cs

end

/-- `Number.prototype.toLocaleString` for a natural number under the default
`en-US` locale: decimal digits with `,` every three digits. -/
def groupDigits : List Char → List Char
  | a :: b :: c :: d :: rest => a :: b :: c :: ',' :: groupDigits (d :: rest)
  | l => l

def localeString (n : Nat) : List Char :=
  (groupDigits (natChars n).reverse).reverse

/-- `extractSummary` from `tokenizer.ts`. -/
def extractSummary (content title : List Char)
    (maxTokens : Nat := DEFAULT_MAX_TOKENS) : SummaryResult :=
  let lines := splitLines content
  let sections := extractSections content
  let totalTokens := estimateTokens content
  let para := jsTrim (summaryScan lines false false)
  let summary :=
    if para = [] then
      let plainText := jsTrim (collapseNewlines (stripHeadings content true))
      plainText.take 200 ++ (if 200 < plainText.length then str "..." else [])
    else para
  let wordCount := ceilDiv content.length 5
  let estimatedReadTime := max 1 (ceilDiv wordCount 200)
  let output :=
    str "# " ++ title ++ str "\n\n" ++
    str "## Summary\n\n" ++ summary ++ str "\n\n" ++
    str "## Article Outline (" ++ natChars sections.length ++ str " sections)\n\n" ++
    (sections.map fun s =>
      indentFor s.level ++ str "- " ++ s.title ++ str " (~" ++
        natChars s.tokenCount ++ str " tokens)\n").flatten ++
    str "\n*Estimated read time: " ++ natChars estimatedReadTime ++
    str " min | Total: " ++ localeString totalTokens ++ str " tokens*\n"
  { title := title
    summary := summary
    outline := sections
    totalTokens := totalTokens
    estimatedReadTime := estimatedReadTime
    tokenInfo := ⟨estimateTokens output, false, maxTokens⟩ }

/-! ## Claim C3: the non-truncating case is the identity -/

/-- C3: whenever `estimateTokens(D) ≤ B`, `truncateToTokenLimit(D, B)` returns
the document unchanged (character for character), with `truncated = false`
and no `remainingSections` field. -/
theorem C3_truncate_identity (D : List Char) (B : Nat)
    (h : estimateTokens D ≤ B) :
    (truncateToTokenLimit D B).content = D ∧
    (truncateToTokenLimit D B).tokenInfo.truncated = false ∧
    (truncateToTokenLimit D B).remainingSections = none := by
  unfold truncateToTokenLimit
  simp [h]

/-- Witness for C3 at a concrete document and budget. -/
theorem C3_truncate_identity_witness :
    estimateTokens (str "# Hello\n\nshort body") ≤ 5000 ∧
    ((truncateToTokenLimit (str "# Hello\n\nshort body") 5000).content =
        str "# Hello\n\nshort body" ∧
      (truncateToTokenLimit (str "# Hello\n\nshort body") 5000).tokenInfo.truncated = false ∧
      (truncateToTokenLimit (str "# Hello\n\nshort body") 5000).remainingSections = none) :=
  ⟨by decide, C3_truncate_identity _ _ (by decide)⟩

/-! ## Claim C4: pagination clamp and index invariants -/

/-- C4: `calculatePagination` returns `totalPages = ceil(totalItems/pageSize)`,
clamps the page into `[1, max(totalPages, 1)]`, computes
`startIndex = (page-1)*pageSize` and `endIndex = min(page*pageSize, totalItems)`
with `0 ≤ startIndex ≤ endIndex ≤ totalItems`; page 999 of a 10-page set
yields page 10, and page 1 of 0 items yields page 1, totalPages 0,
startIndex = endIndex = 0. -/
theorem C4_pagination_clamp (T : Nat) (p : Int) (S : Nat) (hS : 1 ≤ S) :
    (calculatePagination T p S).totalPages = ceilDiv T S ∧
    1 ≤ (calculatePagination T p S).page ∧
    (calculatePagination T p S).page ≤ max ((ceilDiv T S : Nat) : Int) 1 ∧
    (calculatePagination T p S).startIndex = ((calculatePagination T p S).page - 1) * S ∧
    (calculatePagination T p S).endIndex = min ((calculatePagination T p S).page * S) (T : Int) ∧
    0 ≤ (calculatePagination T p S).startIndex ∧
    (calculatePagination T p S).startIndex ≤ (calculatePagination T p S).endIndex ∧
    (calculatePagination T p S).endIndex ≤ (T : Int) ∧
    (calculatePagination 100 999 10).page = 10 ∧
    (calculatePagination 0 1 10).page = 1 ∧
    (calculatePagination 0 1 10).totalPages = 0 ∧
    (calculatePagination 0 1 10).startIndex = 0 ∧
    (calculatePagination 0 1 10).endIndex = 0 := by
  have hS' : (0 : Int) < (S : Int) := by exact_mod_cast hS
  set tp := ceilDiv T S with htp
  have hpage : (calculatePagination T p S).page = min (max 1 p) (max (tp : Int) 1) := rfl
  have h1 : 1 ≤ (calculatePagination T p S).page := by
    rw [hpage]
    exact le_min (le_max_left 1 p) (le_max_right (tp : Int) 1)
  have h2 : (calculatePagination T p S).page ≤ max ((tp : Nat) : Int) 1 := by
    rw [hpage]; exact min_le_right _ _
  have hkey : ((calculatePagination T p S).page - 1) * (S : Int) ≤ (T : Int) := by
    rcases Nat.eq_zero_or_pos T with hT | hT
    · have htp0 : tp = 0 := by
        rw [htp, hT]
        unfold ceilDiv
        exact Nat.div_eq_of_lt (by omega)
      have : (calculatePagination T p S).page = 1 := by
        have := h2
        rw [htp0] at this
        simp at this
        omega
      rw [this]
      simp [hT]
    · have htp1 : 1 ≤ tp := by
        rw [htp]
        unfold ceilDiv
        rw [Nat.le_div_iff_mul_le (by omega)]
        omega
      have hmax : max ((tp : Nat) : Int) 1 = (tp : Int) := by
        have : (1 : Int) ≤ (tp : Int) := by exact_mod_cast htp1
        omega
      have hnp : (calculatePagination T p S).page ≤ (tp : Int) := by
        rw [← hmax]; exact h2
      have hmul : tp * S ≤ T + S - 1 := Nat.div_mul_le_self (T + S - 1) S
      have hmul' : (tp : Int) * S ≤ (T : Int) + S - 1 := by
        have h3 : ((tp * S : Nat) : Int) ≤ ((T + S - 1 : Nat) : Int) := by
          exact_mod_cast hmul
        push_cast at h3
        omega
      have step1 : ((calculatePagination T p S).page - 1) * (S : Int) ≤
          ((tp : Int) - 1) * S :=
        mul_le_mul_of_nonneg_right (by omega) (by omega)
      have step2 : ((tp : Int) - 1) * S ≤ (T : Int) - 1 := by nlinarith
      omega
  refine ⟨rfl, h1, h2, rfl, rfl, ?_, ?_, ?_,
    by decide, by decide, by decide, by decide, by decide⟩
  · show 0 ≤ ((calculatePagination T p S).page - 1) * (S : Int)
    exact mul_nonneg (by omega) (by omega)
  · show ((calculatePagination T p S).page - 1) * (S : Int) ≤
      min ((calculatePagination T p S).page * S) (T : Int)
    refine le_min ?_ hkey
    exact mul_le_mul_of_nonneg_right (by omega) (by omega)
  · exact min_le_right _ _

/-- Witness for C4 at a concrete page size. -/
theorem C4_pagination_clamp_witness :
    (1 ≤ 7) ∧ (calculatePagination 23 2 7).totalPages = ceilDiv 23 7 ∧
      1 ≤ (calculatePagination 23 2 7).page :=
  ⟨by decide, (C4_pagination_clamp 23 2 7 (by decide)).1,
    (C4_pagination_clamp 23 2 7 (by decide)).2.1⟩

/-! ## Claim C8: remainingSections is a set difference by id -/

/-- C8: when truncation occurs, `remainingSections` is exactly the full
document's sections whose id is absent from the section list re-extracted from
the truncated body; when no truncation occurs the field is absent. -/
theorem C8_remaining_sections (D : List Char) (B : Nat) :
    (B < estimateTokens D →
      (truncateToTokenLimit D B).remainingSections =
        some ((extractSections D).filter fun s =>
          !(((extractSections (truncatedContentOf D B)).map (·.id)).contains s.id))) ∧
    (estimateTokens D ≤ B →
      (truncateToTokenLimit D B).remainingSections = none) := by
  constructor
  · intro h
    unfold truncateToTokenLimit
    rw [if_neg (by omega)]
    rfl
  · intro h
    unfold truncateToTokenLimit
    rw [if_pos h]

/-- Witness for C8: both branches at concrete inputs. -/
theorem C8_remaining_sections_witness :
    ((truncateToTokenLimit (str "# A\n\nalpha beta gamma delta epsilon\n\n## B\n\nzeta") 8).remainingSections =
      some ((extractSections (str "# A\n\nalpha beta gamma delta epsilon\n\n## B\n\nzeta")).filter fun s =>
        !(((extractSections (truncatedContentOf
            (str "# A\n\nalpha beta gamma delta epsilon\n\n## B\n\nzeta") 8)).map (·.id)).contains s.id))) ∧
    (truncateToTokenLimit (str "tiny") 100).remainingSections = none :=
  ⟨(C8_remaining_sections _ 8).1 (by decide),
    (C8_remaining_sections _ 100).2 (by decide)⟩

/-! ## Claim C9: unmatched identifier returns the null section sentinel -/

/-- Does a line parse as a heading that matches the identifier? -/
def lineMatches (ident l : List Char) : Bool :=
  match parseHeading l with
  | some (_, t) => matchesIdentifier ident t
  | none => false

theorem collectSection_no_match (ident : List Char) :
    ∀ (ls : List (List Char)) (tl : Nat),
      (∀ l ∈ ls, lineMatches ident l = false) →
      collectSection ident ls none tl = ([], none) := by
  intro ls
  induction ls with
  | nil => intro tl _; rfl
  | cons line rest ih =>
    intro tl hno
    rw [collectSection]
    cases hp : parseHeading line with
    | none =>
      exact ih tl fun l hl => hno l (List.mem_cons_of_mem _ hl)
    | some p =>
      obtain ⟨lv, t⟩ := p
      have hm : matchesIdentifier ident t = false := by
        have := hno line (List.mem_cons_self _ _)
        rw [lineMatches, hp] at this
        exact this
      simp only [hm]
      rw [if_neg (by simp)]
      exact ih tl fun l hl => hno l (List.mem_cons_of_mem _ hl)

/-- C9: when no heading of the document matches the identifier,
`extractSection` returns `section = null`, empty content, a zero token count
and `truncated = false` (it is a total function: no error is possible). -/
theorem C9_no_match_sentinel (content ident : List Char) (B : Nat)
    (hno : ∀ l ∈ splitLines content, lineMatches ident l = false) :
    (extractSection content ident B).section? = none ∧
    (extractSection content ident B).content = [] ∧
    (extractSection content ident B).tokenInfo.tokenCount = 0 ∧
    (extractSection content ident B).tokenInfo.truncated = false := by
  unfold extractSection
  rw [collectSection_no_match ident (splitLines content) 0 hno]
  dsimp only
  have hempty : List.intercalate ['\n'] ([] : List (List Char)) = ([] : List Char) := rfl
  rw [hempty]
  unfold truncateToTokenLimit
  have h0 : estimateTokens ([] : List Char) = 0 := rfl
  rw [h0, if_pos (Nat.zero_le B)]
  simp

/-- Witness for C9 at a concrete document and identifier. -/
theorem C9_no_match_sentinel_witness :
    (extractSection (str "# Alpha\n\nbody\n\n## Beta\n\nmore") (str "zzz") 5000).section? = none ∧
    (extractSection (str "# Alpha\n\nbody\n\n## Beta\n\nmore") (str "zzz") 5000).content = [] ∧
    (extractSection (str "# Alpha\n\nbody\n\n## Beta\n\nmore") (str "zzz") 5000).tokenInfo.tokenCount = 0 ∧
    (extractSection (str "# Alpha\n\nbody\n\n## Beta\n\nmore") (str "zzz") 5000).tokenInfo.truncated = false :=
  C9_no_match_sentinel (str "# Alpha\n\nbody\n\n## Beta\n\nmore") (str "zzz") 5000 (by decide)

/-! ## Claim C5: the item fitter's hasNext signal -/

theorem fitItems_not_truncated {α : Type} (B : Nat) (f : α → List Char) :
    ∀ (l : List α) (run : Nat),
      (fitItems B f l run).2.2 = false → (fitItems B f l run).1 = l := by
  intro l
  induction l with
  | nil => intro run _; rfl
  | cons item rest ih =>
    intro run h
    rw [fitItems] at h ⊢
    by_cases hb : B < run + estimateTokens (f item)
    · rw [if_pos hb] at h
      simp at h
    · rw [if_neg hb] at h ⊢
      dsimp only at h ⊢
      rw [ih _ h]

/-- C5: `truncateItemsToTokenLimit` reports
`pagination.hasNext = pageHasNext OR truncated`; in particular, when greedy
token-fitting stops before exhausting the page slice, `hasNext` is true even
if that page is the last page by count. -/
theorem C5_item_fitter_hasNext {α : Type} (items : List α) (B : Nat)
    (f : α → List Char) (page : Int) (S : Nat) (hS : 1 ≤ S) :
    (truncateItemsToTokenLimit items B f page S).pagination.hasNext =
      ((calculatePagination items.length page S).hasNext ||
        (truncateItemsToTokenLimit items B f page S).tokenInfo.truncated) ∧
    ((truncateItemsToTokenLimit items B f page S).items.length <
        (pageSliceOf items page S).length →
      (truncateItemsToTokenLimit items B f page S).pagination.hasNext = true) := by
  constructor
  · rfl
  · intro hlt
    by_cases htr : (fitItems B f (pageSliceOf items page S) 0).2.2 = true
    · show ((calculatePagination items.length page S).hasNext ||
        (fitItems B f (pageSliceOf items page S) 0).2.2) = true
      rw [htr, Bool.or_true]
    · exfalso
      have hfull := fitItems_not_truncated B f (pageSliceOf items page S) 0
        (by revert htr; cases (fitItems B f (pageSliceOf items page S) 0).2.2 <;> simp)
      have : (truncateItemsToTokenLimit items B f page S).items.length =
          (pageSliceOf items page S).length := by
        show (fitItems B f (pageSliceOf items page S) 0).1.length = _
        rw [hfull]
      omega

/-- Witness for C5: three items of 10 tokens each against a 15-token budget
cut off mid-page, and `hasNext` is reported true. -/
theorem C5_item_fitter_hasNext_witness :
    (truncateItemsToTokenLimit [1, 2, 3] 15 (fun _ => List.replicate 40 'a') 1 10).pagination.hasNext
      = true :=
  (C5_item_fitter_hasNext [1, 2, 3] 15 (fun _ => List.replicate 40 'a') 1 10 (by decide)).2
    (by decide)

/-! ## Claim C6: section collection takes the first match's subtree -/

theorem collectSection_after_found (ident : List Char) (f : ArticleSection) :
    ∀ (ls : List (List Char)) (tl : Nat),
      (collectSection ident ls (some f) tl).1 = takeSectionSpec tl ls := by
  intro ls
  induction ls with
  | nil => intro tl; rfl
  | cons line rest ih =>
    intro tl
    rw [collectSection, takeSectionSpec]
    cases hp : parseHeading line with
    | none => dsimp only; rw [ih tl]
    | some p =>
      obtain ⟨lv, t⟩ := p
      dsimp only
      by_cases hlv : lv ≤ tl
      · rw [if_pos hlv, if_pos hlv]
      · rw [if_neg hlv, if_neg hlv]
        dsimp only
        rw [ih tl]

theorem collectSection_eq_spec (ident : List Char) :
    ∀ (ls : List (List Char)) (tl : Nat),
      (collectSection ident ls none tl).1 = sectionLinesSpec ident ls := by
  intro ls
  induction ls with
  | nil => intro tl; rfl
  | cons line rest ih =>
    intro tl
    rw [collectSection, sectionLinesSpec]
    cases hp : parseHeading line with
    | none => dsimp only; rw [ih tl]
    | some p =>
      obtain ⟨lv, t⟩ := p
      dsimp only
      by_cases hm : matchesIdentifier ident t = true
      · rw [if_pos hm, if_pos hm]
        dsimp only
        rw [collectSection_after_found]
      · rw [if_neg hm, if_neg hm]
        rw [ih tl]

/-- C6: the lines collected by `extractSection` (before truncation) are
exactly those from the first heading matching the identifier (by generated id
or case-insensitive title containment) through the last line before the next
heading of equal or higher level: nested subsections are kept, sibling
content is never included, and scanning stops at the terminator even if a
later heading would also match — precisely the reference `sectionLinesSpec`.
The returned content is that span passed through the truncator. -/
theorem C6_section_subtree (content ident : List Char) (B : Nat) :
    (collectSection ident (splitLines content) none 0).1 =
      sectionLinesSpec ident (splitLines content) ∧
    (extractSection content ident B).content =
      (truncateToTokenLimit
        (List.intercalate ['\n'] (sectionLinesSpec ident (splitLines content))) B).content := by
  refine ⟨collectSection_eq_spec ident (splitLines content) 0, ?_⟩
  unfold extractSection
  dsimp only
  rw [collectSection_eq_spec ident (splitLines content) 0]

/-! ## Claim C10: extractSummary never truncates to the budget -/

/-- C10: `extractSummary` always reports `truncated = false`; `maxTokens` is
only recorded in `tokenInfo` and the rest of the result is independent of it;
and the reported `tokenCount` can exceed `maxTokens` (shown at a concrete
input with budget 1). -/
theorem C10_summary_never_truncated (c t : List Char) (m m' : Nat) :
    (extractSummary c t m).tokenInfo.truncated = false ∧
    (extractSummary c t m).tokenInfo.maxTokens = m ∧
    (extractSummary c t m).title = (extractSummary c t m').title ∧
    (extractSummary c t m).summary = (extractSummary c t m').summary ∧
    (extractSummary c t m).outline = (extractSummary c t m').outline ∧
    (extractSummary c t m).totalTokens = (extractSummary c t m').totalTokens ∧
    (extractSummary c t m).estimatedReadTime = (extractSummary c t m').estimatedReadTime ∧
    (extractSummary c t m).tokenInfo.tokenCount = (extractSummary c t m').tokenInfo.tokenCount ∧
    1 < (extractSummary (str "hello world this is a paragraph.") (str "T") 1).tokenInfo.tokenCount :=
  ⟨rfl, rfl, rfl, rfl, rfl, rfl, rfl, rfl, by decide⟩

/-! ## Fence-marker counting (claims C1, C2) -/

/-- Number of fence-marker lines in a list of lines. -/
def countFenceLines (ls : List (List Char)) : Nat :=
  (ls.filter fun l => startsWithL fence3 l).length

/-- Number of triple-backtick fence markers in a Markdown text: the number of
its lines that begin with a triple-backtick marker. -/
def fenceMarkerCount (s : List Char) : Nat := countFenceLines (splitLines s)

theorem splitLines_cons (c : Char) (cs : List Char) :
    splitLines (c :: cs) = match splitLines cs with
      | [] => [[c]]
      | l :: ls => if c = '\n' then [] :: l :: ls else (c :: l) :: ls := rfl

theorem splitLines_ne_nil (s : List Char) : splitLines s ≠ [] := by
  cases s with
  | nil => simp [splitLines]
  | cons c cs =>
    rw [splitLines_cons]
    cases splitLines cs with
    | nil => simp
    | cons l ls =>
      by_cases hc : c = '\n'
      · simp [hc]
      · simp [hc]

theorem splitLines_cons_eq (c : Char) (cs l : List Char) (ls : List (List Char))
    (h : splitLines cs = l :: ls) :
    splitLines (c :: cs) = if c = '\n' then [] :: l :: ls else (c :: l) :: ls := by
  rw [splitLines_cons, h]

theorem splitLines_append_nl (x y : List Char) :
    splitLines (x ++ '\n' :: y) = splitLines x ++ splitLines y := by
  induction x with
  | nil =>
    show splitLines ('\n' :: y) = splitLines [] ++ splitLines y
    cases hy : splitLines y with
    | nil => exact absurd hy (splitLines_ne_nil y)
    | cons l ls =>
      rw [splitLines_cons_eq '\n' y l ls hy, if_pos rfl]
      rfl
  | cons c cs ih =>
    show splitLines (c :: (cs ++ '\n' :: y)) = _
    cases hcs : splitLines cs with
    | nil => exact absurd hcs (splitLines_ne_nil cs)
    | cons l ls =>
      cases hy : splitLines y with
      | nil => exact absurd hy (splitLines_ne_nil y)
      | cons ly lsy =>
        have hx : splitLines (cs ++ '\n' :: y) = (l :: ls) ++ (ly :: lsy) := by
          rw [ih, hcs, hy]
        rw [splitLines_cons_eq c _ l (ls ++ ly :: lsy) (by rw [hx]; rfl)]
        rw [splitLines_cons_eq c cs l ls hcs]
        by_cases hc : c = '\n'
        · rw [if_pos hc, if_pos hc]
          simp
        · rw [if_neg hc, if_neg hc]
          simp

theorem splitLines_nlfree (p : List Char) (h : '\n' ∉ p) : splitLines p = [p] := by
  induction p with
  | nil => rfl
  | cons c cs ih =>
    have hc : ¬ c = '\n' := fun hc => h (hc ▸ List.mem_cons_self c cs)
    have hcs : '\n' ∉ cs := fun hm => h (List.mem_cons_of_mem _ hm)
    rw [splitLines_cons_eq c cs cs [] (ih hcs), if_neg hc]

theorem splitLines_no_nl : ∀ (s : List Char), ∀ l ∈ splitLines s, '\n' ∉ l := by
  intro s
  induction s with
  | nil =>
    intro l hl
    simp [splitLines] at hl
    subst hl
    simp
  | cons c cs ih =>
    intro l hl
    cases hcs : splitLines cs with
    | nil => exact absurd hcs (splitLines_ne_nil cs)
    | cons l0 ls0 =>
      rw [splitLines_cons_eq c cs l0 ls0 hcs] at hl
      by_cases hc : c = '\n'
      · rw [if_pos hc] at hl
        rcases List.mem_cons.mp hl with h1 | h1
        · subst h1; simp
        · exact ih l (by rw [hcs]; exact h1)
      · rw [if_neg hc] at hl
        rcases List.mem_cons.mp hl with h1 | h1
        · subst h1
          intro hmem
          rcases List.mem_cons.mp hmem with h2 | h2
          · exact hc h2.symm
          · exact ih l0 (by rw [hcs]; exact List.mem_cons_self l0 ls0) h2
        · exact ih l (by rw [hcs]; exact List.mem_cons_of_mem l0 h1)

theorem countFenceLines_append (a b : List (List Char)) :
    countFenceLines (a ++ b) = countFenceLines a + countFenceLines b := by
  simp [countFenceLines, List.filter_append]

theorem fmc_append_nl (x y : List Char) :
    fenceMarkerCount (x ++ '\n' :: y) = fenceMarkerCount x + fenceMarkerCount y := by
  unfold fenceMarkerCount
  rw [splitLines_append_nl, countFenceLines_append]

theorem startsWithL_fence_false (c : Char) (z : List Char) (hc : c ≠ '`') :
    startsWithL fence3 (c :: z) = false := by
  show startsWithL ('`' :: '`' :: '`' :: []) (c :: z) = false
  rw [startsWithL]
  simp [Ne.symm hc]

theorem fmc_nil : fenceMarkerCount [] = 0 := rfl

theorem fmc_nlfree_zero (p : List Char) (hnl : '\n' ∉ p)
    (hp : startsWithL fence3 p = false) : fenceMarkerCount p = 0 := by
  unfold fenceMarkerCount
  rw [splitLines_nlfree p hnl]
  simp [countFenceLines, hp]

theorem fmc_cons_nl (y : List Char) :
    fenceMarkerCount ('\n' :: y) = fenceMarkerCount y := by
  have h := fmc_append_nl [] y
  rw [List.nil_append, fmc_nil, Nat.zero_add] at h
  exact h

theorem fmc_lit (p y : List Char) (hnl : '\n' ∉ p)
    (hp : startsWithL fence3 p = false) :
    fenceMarkerCount (p ++ '\n' :: y) = fenceMarkerCount y := by
  rw [fmc_append_nl, fmc_nlfree_zero p hnl hp, Nat.zero_add]

theorem digitChar_spec (d : Nat) : digitChar d ≠ '\n' ∧ digitChar d ≠ '`' := by
  unfold digitChar
  repeat' split
  all_goals decide

theorem natCharsF_chars :
    ∀ (fuel n : Nat) (acc : List Char),
      (∀ c ∈ acc, ∃ d, c = digitChar d) →
      ∀ c ∈ natCharsF fuel n acc, ∃ d, c = digitChar d := by
  intro fuel
  induction fuel with
  | zero =>
    intro n acc hacc c hc
    rw [natCharsF] at hc
    rcases List.mem_cons.mp hc with h | h
    · exact ⟨n % 10, h⟩
    · exact hacc c h
  | succ fuel ih =>
    intro n acc hacc c hc
    rw [natCharsF] at hc
    by_cases hn : n < 10
    · rw [if_pos hn] at hc
      rcases List.mem_cons.mp hc with h | h
      · exact ⟨n, h⟩
      · exact hacc c h
    · rw [if_neg hn] at hc
      refine ih (n / 10) _ ?_ c hc
      intro c' hc'
      rcases List.mem_cons.mp hc' with h | h
      · exact ⟨n % 10, h⟩
      · exact hacc c' h

theorem natChars_chars (n : Nat) : ∀ c ∈ natChars n, ∃ d, c = digitChar d := by
  intro c hc
  exact natCharsF_chars n n [] (by simp) c hc

theorem natChars_no_nl (n : Nat) : '\n' ∉ natChars n := by
  intro h
  obtain ⟨d, hd⟩ := natChars_chars n '\n' h
  exact (digitChar_spec d).1 hd.symm

theorem indentFor_spaces (lvl : Nat) : ∀ c ∈ indentFor lvl, c = ' ' := by
  intro c hc
  unfold indentFor at hc
  rw [List.mem_flatten] at hc
  obtain ⟨l, hl, hcl⟩ := hc
  rw [List.mem_replicate] at hl
  rw [hl.2] at hcl
  rcases List.mem_cons.mp hcl with h | h
  · exact h
  · simpa using h

theorem bullet_head_not_fence (lvl : Nat) (z : List Char) :
    startsWithL fence3 (indentFor lvl ++ (str "- " ++ z)) = false := by
  unfold indentFor
  cases hn : lvl - 1 with
  | zero =>
    show startsWithL fence3 ('-' :: (' ' :: z)) = false
    exact startsWithL_fence_false '-' _ (by decide)
  | succ k =>
    show startsWithL fence3 (' ' :: _) = false
    exact startsWithL_fence_false ' ' _ (by decide)

theorem bullet_body_no_nl (s : ArticleSection) (ht : '\n' ∉ s.title) :
    '\n' ∉ indentFor s.level ++ (str "- " ++ (s.title ++ (str " (~" ++
      (natChars s.tokenCount ++ str " tokens)")))) := by
  intro h
  simp only [List.mem_append] at h
  rcases h with h | h | h | h | h | h
  · exact absurd (indentFor_spaces _ _ h) (by decide)
  · exact absurd h (by decide)
  · exact ht h
  · exact absurd h (by decide)
  · exact natChars_no_nl _ h
  · exact absurd h (by decide)

theorem fmc_bullet (s : ArticleSection) (ht : '\n' ∉ s.title) (y : List Char) :
    fenceMarkerCount (sectionBullet s ++ y) = fenceMarkerCount y := by
  have hsplit : str " tokens)\n" = str " tokens)" ++ ['\n'] := rfl
  have e : sectionBullet s ++ y =
      (indentFor s.level ++ (str "- " ++ (s.title ++ (str " (~" ++
        (natChars s.tokenCount ++ str " tokens)"))))) ++ '\n' :: y := by
    unfold sectionBullet
    rw [hsplit]
    simp [List.append_assoc]
  rw [e]
  exact fmc_lit _ _ (bullet_body_no_nl s ht)
    (by
      have := bullet_head_not_fence s.level
        (s.title ++ (str " (~" ++ (natChars s.tokenCount ++ str " tokens)")))
      simpa [List.append_assoc] using this)

theorem fmc_bullets (ss : List ArticleSection) (hnl : ∀ s ∈ ss, '\n' ∉ s.title) :
    ∀ y, fenceMarkerCount ((ss.map sectionBullet).flatten ++ y) = fenceMarkerCount y := by
  induction ss with
  | nil => intro y; simp
  | cons s ss ih =>
    intro y
    have e : (((s :: ss).map sectionBullet).flatten ++ y) =
        sectionBullet s ++ ((ss.map sectionBullet).flatten ++ y) := by
      simp [List.append_assoc]
    rw [e, fmc_bullet s (hnl s (List.mem_cons_self s ss)) _]
    exact ih (fun s' hs' => hnl s' (List.mem_cons_of_mem _ hs')) y

theorem fmc_hint_zero :
    fenceMarkerCount (str "\n*Use the `section` parameter to retrieve specific sections.*") = 0 := by
  have h : str "\n*Use the `section` parameter to retrieve specific sections.*" =
      '\n' :: str "*Use the `section` parameter to retrieve specific sections.*" := rfl
  rw [h, fmc_cons_nl]
  decide

theorem fmc_buildNotice (rem : List ArticleSection)
    (hrem : ∀ s ∈ rem, '\n' ∉ s.title) (x : List Char) :
    fenceMarkerCount (x ++ buildNotice rem) = fenceMarkerCount x := by
  unfold buildNotice
  have e1 : x ++ (str "\n\n---\n\n*[Content truncated due to token limit]*\n" ++
      (if rem.length ≠ 0 then
        str "\n**Remaining sections:**\n" ++
          ((rem.take 10).map sectionBullet).flatten ++
          (if 10 < rem.length then
            str "\n*...and " ++ natChars (rem.length - 10) ++ str " more sections*\n"
           else []) ++
          str "\n*Use the `section` parameter to retrieve specific sections.*"
       else [])) =
      x ++ '\n' :: ('\n' :: (str "---" ++ '\n' :: ('\n' ::
        (str "*[Content truncated due to token limit]*" ++ '\n' ::
          (if rem.length ≠ 0 then
            str "\n**Remaining sections:**\n" ++
              ((rem.take 10).map sectionBullet).flatten ++
              (if 10 < rem.length then
                str "\n*...and " ++ natChars (rem.length - 10) ++ str " more sections*\n"
               else []) ++
              str "\n*Use the `section` parameter to retrieve specific sections.*"
           else []))))) := rfl
  rw [e1, fmc_append_nl, fmc_cons_nl,
    fmc_lit (str "---") _ (by decide) (by decide), fmc_cons_nl,
    fmc_lit (str "*[Content truncated due to token limit]*") _ (by decide) (by decide)]
  suffices h : fenceMarkerCount
      (if rem.length ≠ 0 then
        str "\n**Remaining sections:**\n" ++
          ((rem.take 10).map sectionBullet).flatten ++
          (if 10 < rem.length then
            str "\n*...and " ++ natChars (rem.length - 10) ++ str " more sections*\n"
           else []) ++
          str "\n*Use the `section` parameter to retrieve specific sections.*"
       else []) = 0 by
    rw [h]
    omega
  by_cases hlen : rem.length ≠ 0
  · rw [if_pos hlen]
    have e2a : str "\n**Remaining sections:**\n" ++
        ((rem.take 10).map sectionBullet).flatten ++
        (if 10 < rem.length then
          str "\n*...and " ++ natChars (rem.length - 10) ++ str " more sections*\n"
         else []) ++
        str "\n*Use the `section` parameter to retrieve specific sections.*" =
        str "\n**Remaining sections:**\n" ++
          (((rem.take 10).map sectionBullet).flatten ++
            ((if 10 < rem.length then
              str "\n*...and " ++ natChars (rem.length - 10) ++ str " more sections*\n"
             else []) ++
             str "\n*Use the `section` parameter to retrieve specific sections.*")) := by
      simp [List.append_assoc]
    have e2b : str "\n**Remaining sections:**\n" ++
          (((rem.take 10).map sectionBullet).flatten ++
            ((if 10 < rem.length then
              str "\n*...and " ++ natChars (rem.length - 10) ++ str " more sections*\n"
             else []) ++
             str "\n*Use the `section` parameter to retrieve specific sections.*")) =
        '\n' :: (str "**Remaining sections:**" ++ '\n' ::
          (((rem.take 10).map sectionBullet).flatten ++
            ((if 10 < rem.length then
              str "\n*...and " ++ natChars (rem.length - 10) ++ str " more sections*\n"
             else []) ++
             str "\n*Use the `section` parameter to retrieve specific sections.*"))) := rfl
    rw [e2a, e2b, fmc_cons_nl, fmc_lit (str "**Remaining sections:**") _ (by decide) (by decide)]
    rw [fmc_bullets (rem.take 10)
      (fun s hs => hrem s (List.mem_of_mem_take hs)) _]
    by_cases hov : 10 < rem.length
    · rw [if_pos hov]
      have e3a : (str "\n*...and " ++ natChars (rem.length - 10) ++ str " more sections*\n") ++
          str "\n*Use the `section` parameter to retrieve specific sections.*" =
          str "\n*...and " ++ (natChars (rem.length - 10) ++ (str " more sections*\n" ++
            str "\n*Use the `section` parameter to retrieve specific sections.*")) := by
        simp [List.append_assoc]
      have e3b : str " more sections*\n" ++
          str "\n*Use the `section` parameter to retrieve specific sections.*" =
          str " more sections*" ++ '\n' ::
            str "\n*Use the `section` parameter to retrieve specific sections.*" := rfl
      have e3c : str "\n*...and " ++ (natChars (rem.length - 10) ++ (str " more sections*" ++ '\n' ::
            str "\n*Use the `section` parameter to retrieve specific sections.*")) =
          '\n' :: ((str "*...and " ++ (natChars (rem.length - 10) ++ str " more sections*")) ++ '\n' ::
            str "\n*Use the `section` parameter to retrieve specific sections.*") := by
        have : str "\n*...and " = '\n' :: str "*...and " := rfl
        rw [this]
        simp [List.append_assoc]
      rw [e3a, e3b, e3c, fmc_cons_nl, fmc_lit _ _
        (by
          intro hmem
          simp only [List.mem_append] at hmem
          rcases hmem with h' | h' | h'
          · exact absurd h' (by decide)
          · exact natChars_no_nl _ h'
          · exact absurd h' (by decide))
        (by
          show startsWithL fence3 ('*' :: (str "...and " ++
            (natChars (rem.length - 10) ++ str " more sections*"))) = false
          exact startsWithL_fence_false '*' _ (by decide))]
      exact fmc_hint_zero
    · rw [if_neg hov, List.nil_append]
      exact fmc_hint_zero
  · rw [if_neg hlen]
    exact fmc_nil

/-- The code-block toggle state after processing a list of lines. -/
def fenceToggle (ls : List (List Char)) (b : Bool) : Bool :=
  ls.foldl (fun acc l => if startsWithL fence3 l then !acc else acc) b

theorem countFenceLines_cons (l : List Char) (ls : List (List Char)) :
    countFenceLines (l :: ls) =
      (if startsWithL fence3 l then 1 else 0) + countFenceLines ls := by
  unfold countFenceLines
  rw [List.filter_cons]
  split
  · simp [List.length_cons]
    omega
  · simp

theorem fenceToggle_parity :
    ∀ (ls : List (List Char)) (b : Bool),
      fenceToggle ls b = (b ^^ decide (countFenceLines ls % 2 = 1)) := by
  intro ls
  induction ls with
  | nil =>
    intro b
    show b = (b ^^ decide (countFenceLines [] % 2 = 1))
    have h0 : countFenceLines [] = 0 := rfl
    rw [h0]
    cases b <;> decide
  | cons l ls ih =>
    intro b
    show fenceToggle ls (if startsWithL fence3 l then !b else b) = _
    rw [ih, countFenceLines_cons]
    by_cases hf : startsWithL fence3 l = true
    · rw [if_pos hf, if_pos hf]
      by_cases hp : countFenceLines ls % 2 = 1
      · have h2 : ¬ ((1 + countFenceLines ls) % 2 = 1) := by omega
        simp only [hp, h2, decide_eq_true_eq, decide_eq_false_iff_not]
        cases b <;> simp [hp, h2]
      · have h2 : (1 + countFenceLines ls) % 2 = 1 := by omega
        cases b <;> simp [hp, h2]
    · rw [if_neg hf, if_neg hf]
      simp

theorem truncScan_struct (eff : Nat) :
    ∀ (ls : List (List Char)) (run : Nat) (ic : Bool),
      ∃ rest, ls = (truncScan eff ls run ic).1 ++ rest ∧
        ((rest = [] ∧ (truncScan eff ls run ic).2.1 = false) ∨
         (∃ bl tl, rest = bl :: tl ∧
           (truncScan eff ls run ic).2.1 =
             fenceToggle ((truncScan eff ls run ic).1 ++ [bl]) ic)) := by
  intro ls
  induction ls with
  | nil =>
    intro run ic
    exact ⟨[], rfl, Or.inl ⟨rfl, rfl⟩⟩
  | cons line rest0 ih =>
    intro run ic
    rw [truncScan]
    by_cases hb : eff < run + estimateTokens (line ++ ['\n'])
    · rw [if_pos hb]
      refine ⟨line :: rest0, rfl, Or.inr ⟨line, rest0, rfl, ?_⟩⟩
      show (if startsWithL fence3 line then !ic else ic) = fenceToggle ([] ++ [line]) ic
      rfl
    · rw [if_neg hb]
      dsimp only
      obtain ⟨rest, hsplit, hcase⟩ :=
        ih (run + estimateTokens (line ++ ['\n']))
          (if startsWithL fence3 line then !ic else ic)
      refine ⟨rest, by rw [List.cons_append, ← hsplit], ?_⟩
      rcases hcase with ⟨h1, h2⟩ | ⟨bl, tl, h1, h2⟩
      · exact Or.inl ⟨h1, h2⟩
      · refine Or.inr ⟨bl, tl, h1, ?_⟩
        rw [h2, List.cons_append]
        rfl

theorem truncScan_running (eff : Nat) :
    ∀ (ls : List (List Char)) (run : Nat) (ic : Bool),
      (truncScan eff ls run ic).2.2 =
        run + ((truncScan eff ls run ic).1.map
          (fun l => estimateTokens (l ++ ['\n']))).sum ∧
      (run ≤ eff → (truncScan eff ls run ic).2.2 ≤ eff) := by
  intro ls
  induction ls with
  | nil =>
    intro run ic
    exact ⟨by simp [truncScan], fun h => h⟩
  | cons line rest0 ih =>
    intro run ic
    rw [truncScan]
    by_cases hb : eff < run + estimateTokens (line ++ ['\n'])
    · rw [if_pos hb]
      exact ⟨by simp, fun h => h⟩
    · rw [if_neg hb]
      dsimp only
      obtain ⟨hsum, hle⟩ :=
        ih (run + estimateTokens (line ++ ['\n']))
          (if startsWithL fence3 line then !ic else ic)
      constructor
      · rw [hsum]
        simp
        omega
      · intro _
        exact hle (by omega)

theorem jsTrim_subset (l : List Char) (c : Char) (h : c ∈ jsTrim l) : c ∈ l := by
  unfold jsTrim at h
  rw [List.mem_reverse] at h
  have h2 := (List.dropWhile_sublist (p := isSpaceChar)).mem h
  rw [List.mem_reverse] at h2
  exact (List.dropWhile_sublist (p := isSpaceChar)).mem h2

theorem parseHeading_title_mem (line : List Char) (lv : Nat) (t : List Char)
    (hp : parseHeading line = some (lv, t)) : ∀ c ∈ t, c ∈ line := by
  intro c hc
  unfold parseHeading at hp
  by_cases h1 : 1 ≤ (line.takeWhile fun c => c = '#').length ∧
      (line.takeWhile fun c => c = '#').length ≤ 6
  · rw [if_pos h1] at hp
    dsimp only at hp
    split at hp
    · injection hp with hp'
      injection hp' with _ h2
      subst h2
      have := jsTrim_subset _ c hc
      have h3 := (List.drop_sublist _ _).mem this
      exact (List.drop_sublist _ _).mem h3
    · exact absurd hp (by simp)
  · rw [if_neg h1] at hp
    exact absurd hp (by simp)

theorem extractSectionsAux_cons (line : List Char) (rest : List (List Char))
    (cur : Option (List Char × Nat)) (content : List Char) :
    extractSectionsAux (line :: rest) cur content =
      match parseHeading line with
      | some (level, title) =>
          saveSection cur content
            (extractSectionsAux rest (some (title, level)) (line ++ ['\n']))
      | none =>
          match cur with
          | some _ => extractSectionsAux rest cur (content ++ line ++ ['\n'])
          | none => extractSectionsAux rest none content := rfl

theorem extractSectionsAux_no_nl :
    ∀ (ls : List (List Char)) (cur : Option (List Char × Nat)) (content : List Char),
      (∀ l ∈ ls, '\n' ∉ l) →
      (∀ t lvl, cur = some (t, lvl) → '\n' ∉ t) →
      ∀ s ∈ extractSectionsAux ls cur content, '\n' ∉ s.title := by
  intro ls
  induction ls with
  | nil =>
    intro cur content _ hcur s hs
    rw [extractSectionsAux] at hs
    cases cur with
    | none => simp [saveSection] at hs
    | some p =>
      obtain ⟨t, lvl⟩ := p
      simp [saveSection] at hs
      rw [hs]
      exact hcur t lvl rfl
  | cons line rest ih =>
    intro cur content hls hcur s hs
    rw [extractSectionsAux_cons] at hs
    cases hp : parseHeading line with
    | some p =>
      obtain ⟨lvl, t⟩ := p
      rw [hp] at hs
      dsimp only at hs
      have hrest : ∀ l ∈ rest, '\n' ∉ l :=
        fun l hl => hls l (List.mem_cons_of_mem _ hl)
      have hnew : ∀ t' lvl', (some (t, lvl) : Option (List Char × Nat)) = some (t', lvl') →
          '\n' ∉ t' := by
        intro t' lvl' he
        injection he with he'
        injection he' with he1 _
        subst he1
        intro hmem
        exact hls line (List.mem_cons_self _ _)
          (parseHeading_title_mem line lvl t hp '\n' hmem)
      cases cur with
      | none =>
        simp only [saveSection] at hs
        exact ih (some (t, lvl)) (line ++ ['\n']) hrest hnew s hs
      | some q =>
        obtain ⟨t0, l0⟩ := q
        simp only [saveSection] at hs
        rcases List.mem_cons.mp hs with h | h
        · rw [h]
          exact hcur t0 l0 rfl
        · exact ih (some (t, lvl)) (line ++ ['\n']) hrest hnew s h
    | none =>
      rw [hp] at hs
      dsimp only at hs
      have hrest : ∀ l ∈ rest, '\n' ∉ l :=
        fun l hl => hls l (List.mem_cons_of_mem _ hl)
      cases cur with
      | none =>
        dsimp only at hs
        exact ih none content hrest (by simp) s hs
      | some q =>
        dsimp only at hs
        exact ih (some q) _ hrest hcur s hs

theorem extractSections_no_nl (D : List Char) :
    ∀ s ∈ extractSections D, '\n' ∉ s.title := by
  intro s hs
  exact extractSectionsAux_no_nl (splitLines D) none []
    (splitLines_no_nl D) (by simp) s hs

theorem getD_append_cons {α : Type} (a : List α) (b : α) (t : List α) (d : α) :
    (a ++ b :: t).getD a.length d = b := by
  induction a with
  | nil => rfl
  | cons x xs ih =>
    rw [List.length_cons, List.cons_append, List.getD_cons_succ]
    exact ih

theorem fmc_intercalate :
    ∀ (ls : List (List Char)), (∀ l ∈ ls, '\n' ∉ l) →
      fenceMarkerCount (List.intercalate ['\n'] ls) = countFenceLines ls := by
  intro ls
  induction ls with
  | nil => intro _; rfl
  | cons l ls ih =>
    intro hnl
    cases ls with
    | nil =>
      have e : List.intercalate ['\n'] [l] = l := by
        simp [List.intercalate]
      rw [e]
      unfold fenceMarkerCount
      rw [splitLines_nlfree l (hnl l (List.mem_cons_self l []))]
    | cons l2 ls2 =>
      have e : List.intercalate ['\n'] (l :: l2 :: ls2) =
          l ++ '\n' :: List.intercalate ['\n'] (l2 :: ls2) := rfl
      rw [e, fmc_append_nl, ih (fun x hx => hnl x (List.mem_cons_of_mem _ hx)),
        countFenceLines_cons]
      have hfl : fenceMarkerCount l = if startsWithL fence3 l then 1 else 0 := by
        unfold fenceMarkerCount
        rw [splitLines_nlfree l (hnl l (List.mem_cons_self _ _))]
        unfold countFenceLines
        rw [List.filter_cons]
        split <;> simp
      rw [hfl, countFenceLines_cons, countFenceLines_cons]

/-! ## Claim C1: fence balance of truncated output -/

/-- C1 (amended): when truncation occurs, the line scan stops at a line that
would exceed the budget, and that breaking line does not itself begin with a
triple-backtick marker, the returned content contains an even number of
fence-marker lines. -/
theorem C1_fence_balance_amended (D : List Char) (B : Nat)
    (h1 : B < estimateTokens D)
    (h2 : (truncScan (effectiveMaxOf B) (splitLines D) 0 false).1.length <
      (splitLines D).length)
    (h3 : startsWithL fence3
      ((splitLines D).getD
        (truncScan (effectiveMaxOf B) (splitLines D) 0 false).1.length []) = false) :
    fenceMarkerCount (truncateToTokenLimit D B).content % 2 = 0 := by
  have hcontent : (truncateToTokenLimit D B).content =
      truncatedContentOf D B ++ buildNotice (remainingSectionsOf D B) := by
    unfold truncateToTokenLimit
    rw [if_neg (by omega)]
  rw [hcontent]
  have hrem : ∀ s ∈ remainingSectionsOf D B, '\n' ∉ s.title := by
    intro s hs
    unfold remainingSectionsOf at hs
    exact extractSections_no_nl D s (List.mem_of_mem_filter hs)
  rw [fmc_buildNotice _ hrem]
  obtain ⟨rest, hsplit, hcase⟩ :=
    truncScan_struct (effectiveMaxOf B) (splitLines D) 0 false
  set acc := (truncScan (effectiveMaxOf B) (splitLines D) 0 false).1 with hacc
  set cl := (truncScan (effectiveMaxOf B) (splitLines D) 0 false).2.1 with hcl
  rcases hcase with ⟨hrest, _⟩ | ⟨bl, tl, hrest, hclval⟩
  · exfalso
    rw [hrest, List.append_nil] at hsplit
    rw [← hsplit] at h2
    omega
  · have hbl : (splitLines D).getD acc.length [] = bl := by
      rw [hsplit, hrest]
      exact getD_append_cons acc bl tl []
    have hblf : startsWithL fence3 bl = false := by rw [← hbl]; exact h3
    have hnl : ∀ l ∈ truncatedLinesOf D B, '\n' ∉ l := by
      intro l hl
      unfold truncatedLinesOf at hl
      dsimp only at hl
      rw [← hacc, ← hcl] at hl
      rcases List.mem_append.mp hl with h | h
      · exact splitLines_no_nl D l (by rw [hsplit]; exact List.mem_append_left _ h)
      · by_cases hc : cl = true
        · rw [if_pos hc] at h
          simp at h
          rw [h]
          decide
        · rw [if_neg hc] at h
          simp at h
    unfold truncatedContentOf
    rw [fmc_intercalate _ hnl]
    unfold truncatedLinesOf
    dsimp only
    rw [← hacc, ← hcl, countFenceLines_append]
    have hcl2 : cl = decide (countFenceLines acc % 2 = 1) := by
      rw [hclval]
      unfold fenceToggle
      rw [List.foldl_append]
      show fenceToggle [bl] (fenceToggle acc false) = _
      have e1 : fenceToggle [bl] (fenceToggle acc false) = fenceToggle acc false := by
        unfold fenceToggle
        rw [List.foldl_cons, hblf]
        rfl
      rw [e1, fenceToggle_parity]
      simp
    by_cases hp : countFenceLines acc % 2 = 1
    · have hcltrue : cl = true := by
        rw [hcl2]
        exact decide_eq_true hp
      rw [if_pos hcltrue]
      have hone : countFenceLines [fence3] = 1 := by decide
      rw [hone]
      omega
    · have hclfalse : ¬ (cl = true) := by
        rw [hcl2]
        simp [decide_eq_false hp]
      rw [if_neg hclfalse]
      have hzero : countFenceLines ([] : List (List Char)) = 0 := rfl
      rw [hzero]
      omega

/-- Document refuting C1 as stated: the second line is a fence line too
costly to include; the toggle flips before the budget check, so a spurious
closing fence is appended to a body that contains no fence at all. -/
def C1doc : List Char :=
  List.replicate 40 'a' ++ '\n' :: (str "```" ++ List.replicate 36 'x')

/-- C1 counterexample: a truncated output whose fence-marker count is odd,
refuting the claim that every truncateToTokenLimit result has balanced
fences. -/
theorem C1_fence_balance_counterexample :
    (truncateToTokenLimit C1doc 12).tokenInfo.truncated = true ∧
    fenceMarkerCount (truncateToTokenLimit C1doc 12).content % 2 = 1 := by
  constructor
  · decide
  · decide

/-- Document for the C1 witness: truncation breaks at an ordinary prose
line. -/
def C1wit : List Char := List.replicate 40 'a' ++ '\n' :: List.replicate 40 'b'

/-- Witness for the amended C1 at a concrete truncating input. -/
theorem C1_fence_balance_amended_witness :
    fenceMarkerCount (truncateToTokenLimit C1wit 12).content % 2 = 0 :=
  C1_fence_balance_amended C1wit 12 (by decide) (by decide) (by decide)

/-! ## Claim C2: budget respected only as a per-line running total -/

/-- Document refuting C2 as stated: a complete fenced code block whose lines
individually price at the prose ratio but whose body re-estimates at the
denser code ratio. -/
def C2doc : List Char :=
  List.intercalate ['\n']
    ([str "```"] ++ List.replicate 8 (List.replicate 39 'a') ++
      [str "```", List.replicate 39 'b'])

/-- C2 counterexample: with budget 100 (effectiveMax 90) the body preceding
the notice estimates to 109 tokens, exceeding B minus the reserved-notice
allowance. -/
theorem C2_budget_counterexample :
    100 < estimateTokens C2doc ∧
    estimateTokens (truncatedContentOf C2doc 100) = 109 ∧
    ¬ (estimateTokens (truncatedContentOf C2doc 100) ≤ 100 - min 500 (100 / 10)) := by
  refine ⟨by decide, by decide, by decide⟩

/-- C2 (amended): when truncation occurs the content is the accumulated body
followed by the notice, and the loop's running total — the sum of the
per-line estimates of the accumulated lines, excluding any appended closing
fence — is at most B - min(500, floor(B/10)).  (The whole-body re-estimate
may exceed that bound, as the counterexample shows, because a multi-line
code block re-prices at the denser code ratio.) -/
theorem C2_running_total_bound (D : List Char) (B : Nat)
    (h : B < estimateTokens D) :
    (truncateToTokenLimit D B).content =
      truncatedContentOf D B ++ buildNotice (remainingSectionsOf D B) ∧
    (truncScan (effectiveMaxOf B) (splitLines D) 0 false).2.2 =
      ((truncScan (effectiveMaxOf B) (splitLines D) 0 false).1.map
        (fun l => estimateTokens (l ++ ['\n']))).sum ∧
    (truncScan (effectiveMaxOf B) (splitLines D) 0 false).2.2 ≤
      B - min 500 (B / 10) := by
  refine ⟨?_, ?_, ?_⟩
  · unfold truncateToTokenLimit
    rw [if_neg (by omega)]
  · have hres := (truncScan_running (effectiveMaxOf B) (splitLines D) 0 false).1
    simpa using hres
  · exact (truncScan_running (effectiveMaxOf B) (splitLines D) 0 false).2
      (Nat.zero_le _)

/-- Witness for the amended C2 at the counterexample document. -/
theorem C2_running_total_bound_witness :
    (truncateToTokenLimit C2doc 100).content =
      truncatedContentOf C2doc 100 ++ buildNotice (remainingSectionsOf C2doc 100) ∧
    (truncScan (effectiveMaxOf 100) (splitLines C2doc) 0 false).2.2 =
      ((truncScan (effectiveMaxOf 100) (splitLines C2doc) 0 false).1.map
        (fun l => estimateTokens (l ++ ['\n']))).sum ∧
    (truncScan (effectiveMaxOf 100) (splitLines C2doc) 0 false).2.2 ≤
      100 - min 500 (100 / 10) :=
  C2_running_total_bound C2doc 100 (by decide)

/-! ## Claim C7: estimateTokens is monotone over prefixes -/

/-- The code-block component of `estimateTokens`. -/
def codeTokens (s : List Char) : Nat :=
  ((splitFences s).1.map fun b => ceilDiv b.length CODE_CHARS_PER_TOKEN).sum

/-- The regular-text length component of `estimateTokens`. -/
def regularLen (s : List Char) : Nat := (splitFences s).2.length

theorem estimateTokens_eq (s : List Char) :
    estimateTokens s = codeTokens s + ceilDiv (regularLen s) CHARS_PER_TOKEN := rfl

theorem findClose_short (s : List Char) (h : s.length ≤ 2) :
    findClose s = none := by
  match s with
  | [] => rfl
  | [a] => rfl
  | [a, b] => rfl
  | a :: b :: c :: t => simp at h

theorem isFenceStart_cons₂_append (c : Char) (cs R : List Char)
    (h : 2 ≤ cs.length) :
    isFenceStart (c :: (cs ++ R)) = isFenceStart (c :: cs) := by
  match cs, h with
  | a :: b :: t, _ => rfl

theorem findClose_append_some :
    ∀ (s r int rest : List Char), findClose s = some (int, rest) →
      findClose (s ++ r) = some (int, rest ++ r) := by
  intro s
  induction s with
  | nil => intro r int rest h; simp [findClose] at h
  | cons c cs ih =>
    intro r int rest h
    by_cases hf : isFenceStart (c :: cs) = true
    · obtain ⟨t, ht⟩ := isFenceStart_shape _ hf
      injection ht with hc hcs
      subst hc; subst hcs
      rw [findClose, if_pos hf] at h
      simp at h
      obtain ⟨h1, h2⟩ := h
      subst h1; subst h2
      show findClose ('`' :: '`' :: '`' :: (t ++ r)) = _
      rw [findClose, if_pos (by simp [isFenceStart])]
      rfl
    · rw [findClose, if_neg hf] at h
      cases hfc : findClose cs with
      | none => rw [hfc] at h; exact absurd h (by simp)
      | some p =>
        obtain ⟨int', rest'⟩ := p
        rw [hfc] at h
        simp at h
        obtain ⟨h1, h2⟩ := h
        subst h1; subst h2
        have hcs2 : 2 ≤ cs.length := by
          by_contra hlt
          rw [findClose_short cs (by omega)] at hfc
          exact absurd hfc (by simp)
        show findClose (c :: (cs ++ r)) = _
        rw [findClose, if_neg (by rw [isFenceStart_cons₂_append c cs r hcs2]; exact hf),
          ih r int' rest' hfc]

theorem findClose_append_none :
    ∀ (s r int rest : List Char), findClose s = none →
      findClose (s ++ r) = some (int, rest) → s.length ≤ int.length + 3 := by
  intro s
  induction s with
  | nil => intro r int rest _ _; simp
  | cons c cs ih =>
    intro r int rest hn hs
    by_cases hf : isFenceStart (c :: cs) = true
    · rw [findClose, if_pos hf] at hn
      exact absurd hn (by simp)
    · rw [findClose, if_neg hf] at hn
      have hfc : findClose cs = none := by
        cases hfc : findClose cs with
        | none => rfl
        | some p =>
          obtain ⟨int', rest'⟩ := p
          rw [hfc] at hn
          exact absurd hn (by simp)
      rw [hfc] at hn
      by_cases hf2 : isFenceStart (c :: (cs ++ r)) = true
      · have hcs1 : cs.length ≤ 1 := by
          by_contra hlt
          rw [isFenceStart_cons₂_append c cs r (by omega)] at hf2
          exact hf hf2
        simp
        omega
      · rw [show (c :: cs) ++ r = c :: (cs ++ r) from rfl, findClose, if_neg hf2] at hs
        cases hfc2 : findClose (cs ++ r) with
        | none => rw [hfc2] at hs; exact absurd hs (by simp)
        | some p =>
          obtain ⟨int', rest'⟩ := p
          rw [hfc2] at hs
          simp at hs
          obtain ⟨h1, h2⟩ := hs
          subst h1; subst h2
          have := ih r int' rest' hfc hfc2
          simp
          omega

theorem codeTokens_fence_some (c : Char) (cs int rest : List Char)
    (hf : isFenceStart (c :: cs) = true)
    (hc : findClose ((c :: cs).drop 3) = some (int, rest)) :
    codeTokens (c :: cs) =
      ceilDiv (int.length + 6) CODE_CHARS_PER_TOKEN + codeTokens rest ∧
    regularLen (c :: cs) = regularLen rest := by
  have hlen : (fence3 ++ int ++ fence3).length = int.length + 6 := by
    simp [fence3]
  constructor
  · unfold codeTokens
    rw [splitFences_fence_some c cs int rest hf hc, List.map_cons, List.sum_cons, hlen]
  · unfold regularLen
    rw [splitFences_fence_some c cs int rest hf hc]

theorem codeTokens_fence_none (c : Char) (cs : List Char)
    (hf : isFenceStart (c :: cs) = true)
    (hc : findClose ((c :: cs).drop 3) = none) :
    codeTokens (c :: cs) = 0 ∧ regularLen (c :: cs) = cs.length + 1 := by
  constructor
  · unfold codeTokens
    rw [splitFences_fence_none c cs hf hc]
    rfl
  · unfold regularLen
    rw [splitFences_fence_none c cs hf hc]
    rfl

theorem codeTokens_cons (c : Char) (cs : List Char)
    (hf : ¬ isFenceStart (c :: cs) = true) :
    codeTokens (c :: cs) = codeTokens cs ∧
    regularLen (c :: cs) = regularLen cs + 1 := by
  constructor
  · unfold codeTokens
    rw [splitFences_cons c cs hf]
  · unfold regularLen
    rw [splitFences_cons c cs hf]
    rfl

theorem codeTokens_nil : codeTokens [] = 0 := rfl

theorem regularLen_nil : regularLen [] = 0 := rfl

theorem ceilDiv_zero_code : ceilDiv 0 CODE_CHARS_PER_TOKEN = 0 := rfl

theorem est_mono_aux :
    ∀ (n : Nat) (T R : List Char), T.length ≤ n →
      ∃ t, regularLen T ≤ regularLen (T ++ R) + t ∧
        codeTokens T + ceilDiv t CODE_CHARS_PER_TOKEN ≤ codeTokens (T ++ R) := by
  intro n
  induction n with
  | zero =>
    intro T R hlen
    have hT : T = [] := by
      cases T with
      | nil => rfl
      | cons c cs => simp at hlen
    subst hT
    refine ⟨0, ?_, ?_⟩
    · rw [regularLen_nil]
      exact Nat.zero_le _
    · rw [codeTokens_nil, ceilDiv_zero_code]
      exact Nat.zero_le _
  | succ n ih =>
    intro T R hlen
    cases T with
    | nil =>
      refine ⟨0, ?_, ?_⟩
      · rw [regularLen_nil]
        exact Nat.zero_le _
      · rw [codeTokens_nil, ceilDiv_zero_code]
        exact Nat.zero_le _
    | cons c cs =>
      simp only [List.cons_append]
      by_cases hf : isFenceStart (c :: cs) = true
      · obtain ⟨u, hu⟩ := isFenceStart_shape _ hf
        injection hu with hc1 hcs1
        subst hc1; subst hcs1
        simp only [List.cons_append]
        have hfR : isFenceStart ('`' :: '`' :: '`' :: (u ++ R)) = true := by
          simp [isFenceStart]
        cases hfc : findClose u with
        | some p =>
          obtain ⟨int, rest⟩ := p
          have hfcR : findClose (u ++ R) = some (int, rest ++ R) :=
            findClose_append_some u R int rest hfc
          obtain ⟨hco, hre⟩ :=
            codeTokens_fence_some '`' ('`' :: '`' :: u) int rest hf (by exact hfc)
          obtain ⟨hcoR, hreR⟩ :=
            codeTokens_fence_some '`' ('`' :: '`' :: (u ++ R)) int (rest ++ R) hfR
              (by exact hfcR)
          have hrlen : rest.length ≤ n := by
            have := findClose_len u int rest hfc
            simp at hlen
            omega
          obtain ⟨t, ht1, ht2⟩ := ih rest R hrlen
          refine ⟨t, ?_, ?_⟩
          · rw [hre, hreR]
            exact ht1
          · rw [hco, hcoR]
            omega
        | none =>
          obtain ⟨hco, hre⟩ :=
            codeTokens_fence_none '`' ('`' :: '`' :: u) hf (by exact hfc)
          cases hfcR : findClose (u ++ R) with
          | none =>
            obtain ⟨hcoR, hreR⟩ :=
              codeTokens_fence_none '`' ('`' :: '`' :: (u ++ R)) hfR (by exact hfcR)
            refine ⟨0, ?_, ?_⟩
            · rw [hre, hreR]
              simp
            · rw [hco, ceilDiv_zero_code]
              exact Nat.zero_le _
          | some p =>
            obtain ⟨int, rest⟩ := p
            have hbound : u.length ≤ int.length + 3 :=
              findClose_append_none u R int rest hfc hfcR
            obtain ⟨hcoR, hreR⟩ :=
              codeTokens_fence_some '`' ('`' :: '`' :: (u ++ R)) int rest hfR
                (by exact hfcR)
            refine ⟨int.length + 6, ?_, ?_⟩
            · rw [hre]
              simp
              omega
            · rw [hco, hcoR]
              show 0 + (int.length + 6 + (3 - 1)) / 3 ≤
                (int.length + 6 + (3 - 1)) / 3 + codeTokens rest
              omega
      · by_cases hf2 : isFenceStart (c :: (cs ++ R)) = true
        · have hcs1 : cs.length ≤ 1 := by
            by_contra hlt
            rw [isFenceStart_cons₂_append c cs R (by omega)] at hf2
            exact hf hf2
          have hcode0 : codeTokens (c :: cs) = 0 ∧
              regularLen (c :: cs) = cs.length + 1 := by
            match cs, hcs1 with
            | [], _ =>
              obtain ⟨h1, h2⟩ := codeTokens_cons c [] hf
              rw [h1, h2, codeTokens_nil, regularLen_nil]
              exact ⟨rfl, rfl⟩
            | [d], _ =>
              obtain ⟨h1, h2⟩ := codeTokens_cons c [d] hf
              obtain ⟨h3, h4⟩ := codeTokens_cons d [] (by simp [isFenceStart])
              rw [h1, h2, h3, h4, codeTokens_nil, regularLen_nil]
              exact ⟨rfl, rfl⟩
          cases hfcR : findClose ((c :: (cs ++ R)).drop 3) with
          | none =>
            obtain ⟨hcoR, hreR⟩ := codeTokens_fence_none c (cs ++ R) hf2 hfcR
            refine ⟨0, ?_, ?_⟩
            · rw [hcode0.2, hreR]
              simp
            · rw [hcode0.1, ceilDiv_zero_code]
              exact Nat.zero_le _
          | some p =>
            obtain ⟨int, rest⟩ := p
            obtain ⟨hcoR, hreR⟩ := codeTokens_fence_some c (cs ++ R) int rest hf2 hfcR
            refine ⟨3, ?_, ?_⟩
            · rw [hcode0.2]
              omega
            · rw [hcode0.1, hcoR]
              show 0 + (3 + (3 - 1)) / 3 ≤
                (int.length + 6 + (3 - 1)) / 3 + codeTokens rest
              omega
        · obtain ⟨hco, hre⟩ := codeTokens_cons c cs hf
          obtain ⟨hcoR, hreR⟩ := codeTokens_cons c (cs ++ R) hf2
          have hlen2 : cs.length ≤ n := by simp at hlen; omega
          obtain ⟨t, ht1, ht2⟩ := ih cs R hlen2
          refine ⟨t, ?_, ?_⟩
          · rw [hre, hreR]
            omega
          · rw [hco, hcoR]
            exact ht2

/-- C7: `estimateTokens` is monotone over prefixes — extending a text never
decreases its estimated cost, even when the added suffix completes a
previously unterminated code fence and reclassifies prefix characters from
prose to code. -/
theorem C7_estimateTokens_prefix_monotone (T1 T2 : List Char) (h : T1 <+: T2) :
    estimateTokens T1 ≤ estimateTokens T2 := by
  obtain ⟨R, hR⟩ := h
  subst hR
  obtain ⟨t, h1, h2⟩ := est_mono_aux T1.length T1 R (Nat.le_refl _)
  rw [estimateTokens_eq, estimateTokens_eq]
  have e4 : ∀ x, ceilDiv x CHARS_PER_TOKEN = (x + 3) / 4 := fun x => rfl
  have e3 : ∀ x, ceilDiv x CODE_CHARS_PER_TOKEN = (x + 2) / 3 := fun x => rfl
  rw [e4, e4]
  rw [e3] at h2
  omega

/-- Witness for C7: the suffix completes an open fence, reclassifying the
prefix's characters from prose to code, and the estimate still does not
decrease. -/
theorem C7_estimateTokens_prefix_monotone_witness :
    estimateTokens (str "```ab") ≤ estimateTokens (str "```ab```") :=
  C7_estimateTokens_prefix_monotone (str "```ab") (str "```ab```")
    ⟨str "```", by decide⟩

end JamfDocs
